import Mathlib

/-!
Shallow embedding of `compiler-core/src/parse/extra.rs`: the trivia-interval
index (`ModuleExtra`), its comment queries (`is_within_comment`,
`has_comment_between`, `first_comment_between`), and comment-text extraction
(`Comment` built from a `SrcSpan` and the backing text).

Byte offsets are `u32`/`usize` in the source; no arithmetic in the embedded
code can wrap (only comparisons and index midpoints bounded by list length),
so they are modelled as `Nat`.  Rust's `Vec<SrcSpan>` becomes `List SrcSpan`,
`Option` stays `Option`, and the `&str` backing text becomes its UTF-8 byte
list `List Nat`.
-/

/-- `SrcSpan` from `ast.rs`: an inclusive byte range.  The Rust field `end`
is a Lean keyword, so it is written `«end»`. -/
structure SrcSpan where
  start : Nat
  «end» : Nat
deriving DecidableEq, Inhabited, Repr

/-- The aggregate of the six trivia sequences, `ModuleExtra` in the source. -/
structure ModuleExtra where
  module_comments : List SrcSpan
  doc_comments : List SrcSpan
  comments : List SrcSpan
  empty_lines : List Nat
  new_lines : List Nat
  trailing_commas : List Nat
deriving DecidableEq, Inhabited, Repr

/-- `ModuleExtra::new()`, i.e. `Default::default()`: all six sequences empty. -/
def ModuleExtra.new : ModuleExtra :=
  { module_comments := []
    doc_comments := []
    comments := []
    empty_lines := []
    new_lines := []
    trailing_commas := [] }

/-- Rust `slice::binary_search_by` loop body.  Rust keeps `size = right - left`
and probes `mid = left + size / 2`, moving `left` to `mid + 1` on `Less`,
`right` to `mid` on `Greater`, and returning `Ok(mid)` on `Equal`; when
`left = right` it returns `Err(left)`.  Only `.ok()` / `.is_ok()` of the
result are ever used by the source, so the embedding returns `Option Nat`
(`some` = `Ok`).  The loop runs at most `right - left` times, so the `fuel`
parameter (structural recursion) never runs out when it starts at the slice
length; `binarySearchGo_some` and `binarySearchGo_complete` make this exact. -/
def binarySearchGo {α : Type} [Inhabited α] (xs : List α) (f : α → Ordering)
    (fuel left right : Nat) : Option Nat :=
  match fuel with
  | 0 => none
  | fuel + 1 =>
    if left < right then
      match f (xs.getD (left + (right - left) / 2) default) with
      | Ordering.lt => binarySearchGo xs f fuel (left + (right - left) / 2 + 1) right
      | Ordering.gt => binarySearchGo xs f fuel left (left + (right - left) / 2)
      | Ordering.eq => some (left + (right - left) / 2)
    else none

/-- Rust `slice::binary_search_by` on the whole slice, keeping the `Ok` index. -/
def binary_search_by {α : Type} [Inhabited α] (xs : List α) (f : α → Ordering) :
    Option Nat :=
  binarySearchGo xs f xs.length 0 xs.length

/-- The comparator closure `cmp` inside `ModuleExtra::is_within_comment`. -/
def cmpWithin (byte_index : Nat) (span : SrcSpan) : Ordering :=
  if byte_index < span.start then Ordering.gt
  else if byte_index > span.«end» then Ordering.lt
  else Ordering.eq

/-- `ModuleExtra::is_within_comment`: three independent binary searches over
`comments`, `doc_comments` and `module_comments`, `||`-ed together. -/
def ModuleExtra.is_within_comment (e : ModuleExtra) (byte_index : Nat) : Bool :=
  (binary_search_by e.comments (cmpWithin byte_index)).isSome
    || (binary_search_by e.doc_comments (cmpWithin byte_index)).isSome
    || (binary_search_by e.module_comments (cmpWithin byte_index)).isSome

/-- The comparator closure inside `find_comment_between` in
`ModuleExtra::first_comment_between`. -/
def cmpBetween (start «end» : Nat) (comment : SrcSpan) : Ordering :=
  if comment.«end» < start then Ordering.lt
  else if comment.start > «end» then Ordering.gt
  else Ordering.eq

/-- The helper closure `find_comment_between` in
`ModuleExtra::first_comment_between`: `None` on an empty slice, else the
`Ok` index of a binary search with `cmpBetween`. -/
def find_comment_between (comments : List SrcSpan) (start «end» : Nat) :
    Option Nat :=
  if comments.isEmpty then none
  else binary_search_by comments (cmpBetween start «end»)

/-- The `while let` narrowing loop of `ModuleExtra::first_comment_between`:
on finding a match at `index` it records it and searches again in the
sub-list `search_list[0..index]` (Rust `get(0..index).unwrap_or(&[])`;
since `index < search_list.len()` this is `List.take index`).  Each
iteration strictly shrinks the list, so `fuel = comments.length + 1`
iterations always suffice; `firstCommentLoop_spec` depends on exactly that. -/
def firstCommentLoop (fuel : Nat) (search_list : List SrcSpan)
    (start «end» : Nat) (first_index_so_far : Option Nat) : Option Nat :=
  match fuel with
  | 0 => first_index_so_far
  | fuel + 1 =>
    match find_comment_between search_list start «end» with
    | some index => firstCommentLoop fuel (search_list.take index) start «end» (some index)
    | none => first_index_so_far

/-- `ModuleExtra::first_comment_between`: run the narrowing loop over the
whole `comments` list, then look the best index back up
(`first_index_so_far.and_then(|index| self.comments.get(index)).copied()`). -/
def ModuleExtra.first_comment_between (e : ModuleExtra) (start «end» : Nat) :
    Option SrcSpan :=
  (firstCommentLoop (e.comments.length + 1) e.comments start «end» none).bind
    (fun index => e.comments.get? index)

/-- `ModuleExtra::has_comment_between`. -/
def ModuleExtra.has_comment_between (e : ModuleExtra) (start «end» : Nat) : Bool :=
  (e.first_comment_between start «end»).isSome

/-- `Comment<'a>`: a start offset plus the borrowed text slice (as bytes). -/
structure Comment where
  start : Nat
  content : List Nat
deriving DecidableEq, Repr

/-- `str::is_char_boundary` from the Rust standard library, on a UTF-8 byte
list: index 0 is a boundary; past the bytes only the exact length is; an
in-range index is a boundary iff its byte is not a UTF-8 continuation byte
(`(b as i8) >= -0x40`, i.e. `b < 0x80 ∨ 0xC0 ≤ b`). -/
def is_char_boundary (s : List Nat) (index : Nat) : Bool :=
  if index = 0 then true
  else
    match s.get? index with
    | none => decide (index = s.length)
    | some b => decide (b < 0x80 ∨ 0xC0 ≤ b)

/-- `str::get(start..end)` from the Rust standard library: `Some` of the
byte sub-slice iff `start ≤ end` and both ends are char boundaries
(an end past the text fails the boundary check). -/
def str_get (s : List Nat) (start «end» : Nat) : Option (List Nat) :=
  if start ≤ «end» && is_char_boundary s start && is_char_boundary s «end» then
    some ((s.drop start).take («end» - start))
  else none

/-- `impl From<(&SrcSpan, &str)> for Comment`: slices the backing text with
`text.get(span.start as usize..span.end as usize)` and panics
(`.expect("From span to comment")`) when that returns `None`; the panic is
modelled as `none`. -/
def Comment.fromSpan (span : SrcSpan) (text : List Nat) : Option Comment :=
  (str_get text span.start span.«end»).map
    (fun content => { start := span.start, content := content })

/-- The spec's notion of overlap between a span and a query range
`[start, end]` (both inclusive): `span.end ≥ start AND span.start ≤ end`. -/
def SrcSpan.overlaps (s : SrcSpan) (start «end» : Nat) : Prop :=
  start ≤ s.«end» ∧ s.start ≤ «end»

instance (s : SrcSpan) (a b : Nat) : Decidable (s.overlaps a b) :=
  inferInstanceAs (Decidable (_ ∧ _))

/-- The invariant the spec places on each comment sequence: every span is
well formed (`start ≤ end`, the `SourceSpan` data-model invariant) and the
spans are sorted ascending by start and mutually non-overlapping, adjacency
(`end` of one equal to `start` of the next) permitted — i.e. pairwise
`a.end ≤ b.start` in list order. -/
def WellFormedComments (l : List SrcSpan) : Prop :=
  (∀ s ∈ l, s.start ≤ s.«end») ∧ l.Pairwise (fun a b => a.«end» ≤ b.start)

instance (l : List SrcSpan) : Decidable (WellFormedComments l) :=
  inferInstanceAs (Decidable (_ ∧ _))

/-- Numeric rank of an `Ordering`, used to state that a comparator is
consistent with list order (`Less` entries, then `Equal`, then `Greater`). -/
def rankOrd : Ordering → Nat
  | Ordering.lt => 0
  | Ordering.eq => 1
  | Ordering.gt => 2

/-- A comparator partitions the list into `Less`, then `Equal`, then
`Greater` runs — the "sorted with respect to the comparator" precondition of
`slice::binary_search_by`. -/
def MonotoneCmp {α : Type} [Inhabited α] (xs : List α) (f : α → Ordering) : Prop :=
  ∀ i j, i ≤ j → j < xs.length →
    rankOrd (f (xs.getD i default)) ≤ rankOrd (f (xs.getD j default))

/-- A query method call through the state it borrows: Rust's
`fn is_within_comment(&self, ..)` takes `&self`, so the call returns its
result and leaves the index exactly as it was. -/
def ModuleExtra.is_within_comment_run (e : ModuleExtra) (byte_index : Nat) :
    Bool × ModuleExtra :=
  (e.is_within_comment byte_index, e)

/-- `fn has_comment_between(&self, ..)` threaded through its borrowed state. -/
def ModuleExtra.has_comment_between_run (e : ModuleExtra) (start «end» : Nat) :
    Bool × ModuleExtra :=
  (e.has_comment_between start «end», e)

/-- `fn first_comment_between(&self, ..)` threaded through its borrowed state. -/
def ModuleExtra.first_comment_between_run (e : ModuleExtra) (start «end» : Nat) :
    Option SrcSpan × ModuleExtra :=
  (e.first_comment_between start «end», e)

/-! ### Bridge lemmas between `getD`, `getElem` and `take` -/

theorem getD_eq_getElem_of_lt {α : Type} [Inhabited α] (l : List α) (i : Nat)
    (h : i < l.length) : l.getD i default = l[i] := by
  simp [List.getD_eq_getElem?_getD, List.getElem?_eq_getElem h]

theorem getD_take_eq {α : Type} [Inhabited α] (l : List α) (m i : Nat)
    (h : i < m) : (l.take m).getD i default = l.getD i default := by
  simp [List.getD_eq_getElem?_getD, List.getElem?_take_of_lt h]

theorem getD_mem_of_lt {α : Type} [Inhabited α] (l : List α) (i : Nat)
    (h : i < l.length) : l.getD i default ∈ l := by
  rw [getD_eq_getElem_of_lt l i h]
  exact List.getElem_mem h

theorem wellFormed_start_le_end (l : List SrcSpan) (hwf : WellFormedComments l)
    (i : Nat) (h : i < l.length) :
    (l.getD i default).start ≤ (l.getD i default).«end» :=
  hwf.1 _ (getD_mem_of_lt l i h)

theorem wellFormed_end_le_start (l : List SrcSpan) (hwf : WellFormedComments l)
    (i j : Nat) (hij : i < j) (hj : j < l.length) :
    (l.getD i default).«end» ≤ (l.getD j default).start := by
  have hi : i < l.length := lt_trans hij hj
  rw [getD_eq_getElem_of_lt l i hi, getD_eq_getElem_of_lt l j hj]
  exact List.pairwise_iff_getElem.mp hwf.2 i j hi hj hij

theorem monotoneCmp_take {α : Type} [Inhabited α] (xs : List α)
    (f : α → Ordering) (m : Nat) (h : MonotoneCmp xs f) :
    MonotoneCmp (xs.take m) f := by
  intro i j hij hj
  rw [List.length_take] at hj
  rw [getD_take_eq xs m i (by omega), getD_take_eq xs m j (by omega)]
  exact h i j hij (by omega)

/-! ### Binary search: soundness and completeness -/

/-- Any `Ok` index returned by the search loop lies in `[left, right)` and
its element compares `Equal`. -/
theorem binarySearchGo_some {α : Type} [Inhabited α] (xs : List α)
    (f : α → Ordering) :
    ∀ fuel left right i, binarySearchGo xs f fuel left right = some i →
      left ≤ i ∧ i < right ∧ f (xs.getD i default) = Ordering.eq := by
  intro fuel
  induction fuel with
  | zero =>
    intro left right i h
    simp [binarySearchGo] at h
  | succ fuel ih =>
    intro left right i h
    rw [binarySearchGo] at h
    split at h
    · split at h
      · have h' := ih _ _ _ h
        refine ⟨by omega, h'.2.1, h'.2.2⟩
      · have h' := ih _ _ _ h
        refine ⟨h'.1, by omega, h'.2.2⟩
      · rename_i hlt heq
        cases h
        exact ⟨by omega, by omega, heq⟩
    · cases h

/-- If the comparator is consistent with the list order and some element in
`[left, right)` compares `Equal`, the search loop returns `some` index,
provided it has at least `right - left` fuel. -/
theorem binarySearchGo_complete {α : Type} [Inhabited α] (xs : List α)
    (f : α → Ordering) (hmono : MonotoneCmp xs f) :
    ∀ fuel left right k, right - left ≤ fuel → right ≤ xs.length →
      left ≤ k → k < right → f (xs.getD k default) = Ordering.eq →
      (binarySearchGo xs f fuel left right).isSome = true := by
  intro fuel
  induction fuel with
  | zero =>
    intro left right k hfuel _ hk1 hk2 _
    omega
  | succ fuel ih =>
    intro left right k hfuel hr hk1 hk2 hk
    have hlr : left < right := by omega
    rw [binarySearchGo]
    simp only [hlr, if_true]
    rcases hm : f (xs.getD (left + (right - left) / 2) default) with _ | _ | _
    · -- probe compares `Less`: the match index is strictly above the probe
      have hmid : left + (right - left) / 2 < k := by
        by_contra hc
        have := hmono k (left + (right - left) / 2) (by omega) (by omega)
        rw [hk, hm] at this
        simp [rankOrd] at this
      exact ih (left + (right - left) / 2 + 1) right k (by omega) hr (by omega) hk2 hk
    · exact rfl
    · -- probe compares `Greater`: the match index is strictly below the probe
      have hmid : k < left + (right - left) / 2 := by
        by_contra hc
        have := hmono (left + (right - left) / 2) k (by omega) (by omega)
        rw [hk, hm] at this
        simp [rankOrd] at this
      exact ih left (left + (right - left) / 2) k (by omega) (by omega) hk1 hmid hk

/-- Soundness of `binary_search_by`: a returned index is in range and its
element compares `Equal`. -/
theorem binary_search_by_some {α : Type} [Inhabited α] (xs : List α)
    (f : α → Ordering) (i : Nat) (h : binary_search_by xs f = some i) :
    i < xs.length ∧ f (xs.getD i default) = Ordering.eq := by
  have h' := binarySearchGo_some xs f xs.length 0 xs.length i h
  exact ⟨h'.2.1, h'.2.2⟩

/-- Completeness of `binary_search_by` under a comparator consistent with
the list order: if some element compares `Equal`, the search succeeds. -/
theorem binary_search_by_complete {α : Type} [Inhabited α] (xs : List α)
    (f : α → Ordering) (hmono : MonotoneCmp xs f) (k : Nat)
    (hk : k < xs.length) (heq : f (xs.getD k default) = Ordering.eq) :
    (binary_search_by xs f).isSome = true :=
  binarySearchGo_complete xs f hmono xs.length 0 xs.length k
    (by omega) (le_refl _) (by omega) hk heq

/-- The `is_within_comment` comparator matches exactly the spans containing
the probed offset (inclusive at both ends). -/
theorem cmpWithin_eq_iff (o : Nat) (s : SrcSpan) :
    cmpWithin o s = Ordering.eq ↔ (s.start ≤ o ∧ o ≤ s.«end») := by
  unfold cmpWithin
  split_ifs <;> simp_all

/-- The `first_comment_between` comparator matches exactly the spans
overlapping the query range: `span.end ≥ start ∧ span.start ≤ end`. -/
theorem cmpBetween_eq_iff (qs qe : Nat) (s : SrcSpan) :
    cmpBetween qs qe s = Ordering.eq ↔ s.overlaps qs qe := by
  unfold cmpBetween SrcSpan.overlaps
  split_ifs <;> simp_all

/-- On a well-formed comment sequence, the `is_within_comment` comparator is
consistent with the list order. -/
theorem monotone_cmpWithin (l : List SrcSpan) (hwf : WellFormedComments l)
    (o : Nat) : MonotoneCmp l (cmpWithin o) := by
  intro i j hij hj
  rcases Nat.eq_or_lt_of_le hij with heq | hlt
  · subst heq; exact le_refl _
  · have h1 := wellFormed_end_le_start l hwf i j hlt hj
    have h2 := wellFormed_start_le_end l hwf i (by omega)
    have h3 := wellFormed_start_le_end l hwf j hj
    unfold cmpWithin
    split_ifs <;> simp [rankOrd] <;> omega

/-- On a well-formed comment sequence, the `first_comment_between`
comparator is consistent with the list order. -/
theorem monotone_cmpBetween (l : List SrcSpan) (hwf : WellFormedComments l)
    (qs qe : Nat) : MonotoneCmp l (cmpBetween qs qe) := by
  intro i j hij hj
  rcases Nat.eq_or_lt_of_le hij with heq | hlt
  · subst heq; exact le_refl _
  · have h1 := wellFormed_end_le_start l hwf i j hlt hj
    have h2 := wellFormed_start_le_end l hwf i (by omega)
    have h3 := wellFormed_start_le_end l hwf j hj
    unfold cmpBetween
    split_ifs <;> simp [rankOrd] <;> omega

/-- Soundness of the `find_comment_between` helper. -/
theorem find_comment_between_some (l : List SrcSpan) (qs qe i : Nat)
    (h : find_comment_between l qs qe = some i) :
    i < l.length ∧ cmpBetween qs qe (l.getD i default) = Ordering.eq := by
  unfold find_comment_between at h
  split at h
  · cases h
  · exact binary_search_by_some l (cmpBetween qs qe) i h

/-- Completeness of the `find_comment_between` helper: when it finds
nothing, no element of the (well-ordered) slice overlaps the query. -/
theorem find_comment_between_none (l : List SrcSpan) (qs qe : Nat)
    (hmono : MonotoneCmp l (cmpBetween qs qe))
    (h : find_comment_between l qs qe = none) :
    ∀ k, k < l.length → cmpBetween qs qe (l.getD k default) ≠ Ordering.eq := by
  intro k hk heq
  unfold find_comment_between at h
  split at h
  · rename_i hemp
    rw [List.isEmpty_iff] at hemp
    subst hemp
    simp at hk
  · have := binary_search_by_complete l (cmpBetween qs qe) hmono k hk heq
    rw [h] at this
    cases this

/-- Correctness of the narrowing loop: started on the prefix `orig.take m`
with a best-so-far that is either nothing (and `m = length`) or a match at
index `m` itself, it ends on the smallest matching index of `orig`, or on
`none` when no index matches. -/
theorem firstCommentLoop_spec (orig : List SrcSpan) (qs qe : Nat)
    (hmono : MonotoneCmp orig (cmpBetween qs qe)) :
    ∀ fuel m best, m < fuel → m ≤ orig.length →
      (best = none ∧ m = orig.length ∨
        ∃ b, best = some b ∧ m = b ∧ b < orig.length ∧
          cmpBetween qs qe (orig.getD b default) = Ordering.eq) →
      ((∃ i, firstCommentLoop fuel (orig.take m) qs qe best = some i ∧
          i < orig.length ∧
          cmpBetween qs qe (orig.getD i default) = Ordering.eq ∧
          ∀ k, k < i → cmpBetween qs qe (orig.getD k default) ≠ Ordering.eq) ∨
        (firstCommentLoop fuel (orig.take m) qs qe best = none ∧
          ∀ k, k < orig.length →
            cmpBetween qs qe (orig.getD k default) ≠ Ordering.eq)) := by
  intro fuel
  induction fuel with
  | zero => intro m best hfuel; omega
  | succ fuel ih =>
    intro m best hfuel hm hinv
    rcases hfind : find_comment_between (orig.take m) qs qe with _ | index
    · -- no further match in the prefix: the loop returns `best`
      have hnone := find_comment_between_none (orig.take m) qs qe
        (monotoneCmp_take orig (cmpBetween qs qe) m hmono) hfind
      have hnone' : ∀ k, k < m →
          cmpBetween qs qe (orig.getD k default) ≠ Ordering.eq := by
        intro k hk
        have := hnone k (by rw [List.length_take]; omega)
        rwa [getD_take_eq orig m k hk] at this
      rw [firstCommentLoop, hfind]
      rcases hinv with ⟨hbest, hlen⟩ | ⟨b, hbest, hmb, hblen, hbeq⟩
      · subst hbest
        exact Or.inr ⟨rfl, fun k hk => hnone' k (by omega)⟩
      · subst hbest
        refine Or.inl ⟨b, rfl, hblen, hbeq, ?_⟩
        intro k hk
        exact hnone' k (by omega)
    · -- a match at `index` in the prefix: record it and narrow to `[0, index)`
      have hsound := find_comment_between_some (orig.take m) qs qe index hfind
      rw [List.length_take] at hsound
      have hidx : index < m := by omega
      have heq : cmpBetween qs qe (orig.getD index default) = Ordering.eq := by
        have := hsound.2
        rwa [getD_take_eq orig m index hidx] at this
      have hstep : firstCommentLoop (fuel + 1) (orig.take m) qs qe best
          = firstCommentLoop fuel ((orig.take m).take index) qs qe (some index) := by
        rw [firstCommentLoop, hfind]
      rw [List.take_take, min_eq_left (by omega : index ≤ m)] at hstep
      rw [hstep]
      exact ih index (some index) (by omega) (by omega)
        (Or.inr ⟨index, rfl, rfl, by omega, heq⟩)

/-- Central case analysis of `ModuleExtra::first_comment_between` on a
well-formed `comments` sequence: it returns the element at the smallest
index whose comparator says `Equal`, or `none` when no index does. -/
theorem first_comment_between_cases (e : ModuleExtra) (qs qe : Nat)
    (hwf : WellFormedComments e.comments) :
    (∃ i, i < e.comments.length ∧
        e.first_comment_between qs qe = some (e.comments.getD i default) ∧
        cmpBetween qs qe (e.comments.getD i default) = Ordering.eq ∧
        ∀ k, k < i →
          cmpBetween qs qe (e.comments.getD k default) ≠ Ordering.eq) ∨
      (e.first_comment_between qs qe = none ∧
        ∀ k, k < e.comments.length →
          cmpBetween qs qe (e.comments.getD k default) ≠ Ordering.eq) := by
  have hmono := monotone_cmpBetween e.comments hwf qs qe
  have hspec := firstCommentLoop_spec e.comments qs qe hmono
    (e.comments.length + 1) e.comments.length none (by omega) (le_refl _)
    (Or.inl ⟨rfl, rfl⟩)
  rw [List.take_length] at hspec
  unfold ModuleExtra.first_comment_between
  rcases hspec with ⟨i, hloop, hi, heq, hmin⟩ | ⟨hloop, hall⟩
  · left
    refine ⟨i, hi, ?_, heq, hmin⟩
    rw [hloop, Option.some_bind, List.get?_eq_getElem?,
      List.getElem?_eq_getElem hi, getD_eq_getElem_of_lt _ _ hi]
  · right
    exact ⟨by rw [hloop]; rfl, hall⟩

/-- C1: on a sorted, mutually non-overlapping `comments` sequence and a
query range with `start ≤ end`, `first_comment_between` returns a span iff
some span overlaps the range (`span.end ≥ start ∧ span.start ≤ end`), and a
returned span is an overlapping element of `comments` with the smallest
start offset: no overlapping span starts earlier. -/
theorem first_comment_between_leftmost_overlap (e : ModuleExtra)
    (qs qe : Nat) (hwf : WellFormedComments e.comments) (_hq : qs ≤ qe) :
    ((∃ r, e.first_comment_between qs qe = some r) ↔
        ∃ s ∈ e.comments, s.overlaps qs qe) ∧
      ∀ r, e.first_comment_between qs qe = some r →
        r ∈ e.comments ∧ r.overlaps qs qe ∧
          (∀ r' ∈ e.comments, r'.overlaps qs qe → r.start ≤ r'.start) ∧
          (∀ r' ∈ e.comments, r'.start < r.start → ¬ r'.overlaps qs qe) := by
  rcases first_comment_between_cases e qs qe hwf with
    ⟨i, hi, hsome, heq, hmin⟩ | ⟨hnone, hall⟩
  · constructor
    · constructor
      · intro _
        exact ⟨_, getD_mem_of_lt _ _ hi, (cmpBetween_eq_iff _ _ _).mp heq⟩
      · intro _
        exact ⟨_, hsome⟩
    · intro r hr
      rw [hsome] at hr
      have hri : e.comments.getD i default = r := Option.some.inj hr
      have hkey : ∀ r' ∈ e.comments, r'.overlaps qs qe → r.start ≤ r'.start := by
        intro r' hr' hov
        obtain ⟨k, hk, hkr⟩ := List.mem_iff_getElem.mp hr'
        rcases lt_trichotomy k i with hki | hki | hki
        · exfalso
          apply hmin k hki
          rw [cmpBetween_eq_iff, getD_eq_getElem_of_lt _ _ hk, hkr]
          exact hov
        · subst hki
          rw [← hri, getD_eq_getElem_of_lt _ _ hk, hkr]
        · have h1 := wellFormed_start_le_end e.comments hwf i hi
          have h2 := wellFormed_end_le_start e.comments hwf i k hki hk
          rw [getD_eq_getElem_of_lt _ _ hk, hkr] at h2
          rw [← hri]
          omega
      refine ⟨?_, ?_, hkey, ?_⟩
      · rw [← hri]; exact getD_mem_of_lt _ _ hi
      · rw [← hri]; exact (cmpBetween_eq_iff _ _ _).mp heq
      · intro r' hr' hlt hov
        have := hkey r' hr' hov
        omega
  · constructor
    · constructor
      · intro ⟨r, hr⟩
        rw [hnone] at hr
        cases hr
      · intro ⟨s, hs, hov⟩
        obtain ⟨k, hk, hks⟩ := List.mem_iff_getElem.mp hs
        exfalso
        apply hall k hk
        rw [cmpBetween_eq_iff, getD_eq_getElem_of_lt _ _ hk, hks]
        exact hov
    · intro r hr
      rw [hnone] at hr
      cases hr

/-- Witness for C1 at a concrete index and query. -/
theorem first_comment_between_leftmost_overlap_witness :
    WellFormedComments
      (ModuleExtra.mk [] [] [⟨0, 10⟩, ⟨20, 30⟩] [] [] []).comments ∧
    15 ≤ 85 ∧
    (∃ r, ModuleExtra.first_comment_between
        (ModuleExtra.mk [] [] [⟨0, 10⟩, ⟨20, 30⟩] [] [] []) 15 85 = some r) :=
  ⟨by decide, by decide,
    (first_comment_between_leftmost_overlap
        (ModuleExtra.mk [] [] [⟨0, 10⟩, ⟨20, 30⟩] [] [] []) 15 85
        (by decide) (by decide)).1.mpr (by decide)⟩

/-- A single well-formed comment sequence: its binary search with the
`is_within_comment` comparator succeeds iff some span contains the offset. -/
theorem within_list_iff (l : List SrcSpan) (hwf : WellFormedComments l)
    (o : Nat) :
    (binary_search_by l (cmpWithin o)).isSome = true ↔
      ∃ s ∈ l, s.start ≤ o ∧ o ≤ s.«end» := by
  constructor
  · intro h
    rw [Option.isSome_iff_exists] at h
    obtain ⟨i, hi⟩ := h
    obtain ⟨hlen, heq⟩ := binary_search_by_some l _ i hi
    exact ⟨_, getD_mem_of_lt l i hlen, (cmpWithin_eq_iff o _).mp heq⟩
  · intro h
    obtain ⟨s, hs, hb⟩ := h
    obtain ⟨k, hk, hks⟩ := List.mem_iff_getElem.mp hs
    apply binary_search_by_complete l _ (monotone_cmpWithin l hwf o) k hk
    rw [cmpWithin_eq_iff, getD_eq_getElem_of_lt l k hk, hks]
    exact hb

/-- C2: when the three comment sequences are each sorted and internally
non-overlapping, `is_within_comment o` is true iff some span of one of them
contains `o` inclusively at both ends. -/
theorem is_within_comment_iff (e : ModuleExtra) (o : Nat)
    (h1 : WellFormedComments e.comments)
    (h2 : WellFormedComments e.doc_comments)
    (h3 : WellFormedComments e.module_comments) :
    e.is_within_comment o = true ↔
      (∃ s ∈ e.comments, s.start ≤ o ∧ o ≤ s.«end») ∨
        (∃ s ∈ e.doc_comments, s.start ≤ o ∧ o ≤ s.«end») ∨
        (∃ s ∈ e.module_comments, s.start ≤ o ∧ o ≤ s.«end») := by
  unfold ModuleExtra.is_within_comment
  rw [Bool.or_eq_true, Bool.or_eq_true,
    within_list_iff _ h1 o, within_list_iff _ h2 o, within_list_iff _ h3 o]
  exact or_assoc

/-- Witness for C2 at a concrete index and offset. -/
theorem is_within_comment_iff_witness :
    WellFormedComments
      (ModuleExtra.mk [⟨0, 2⟩] [⟨5, 7⟩] [⟨20, 30⟩] [] [] []).comments ∧
    WellFormedComments
      (ModuleExtra.mk [⟨0, 2⟩] [⟨5, 7⟩] [⟨20, 30⟩] [] [] []).doc_comments ∧
    WellFormedComments
      (ModuleExtra.mk [⟨0, 2⟩] [⟨5, 7⟩] [⟨20, 30⟩] [] [] []).module_comments ∧
    ModuleExtra.is_within_comment
      (ModuleExtra.mk [⟨0, 2⟩] [⟨5, 7⟩] [⟨20, 30⟩] [] [] []) 6 = true :=
  ⟨by decide, by decide, by decide,
    (is_within_comment_iff (ModuleExtra.mk [⟨0, 2⟩] [⟨5, 7⟩] [⟨20, 30⟩] [] [] [])
        6 (by decide) (by decide) (by decide)).mpr
      (Or.inr (Or.inl (by decide)))⟩

/-- The index built by `set_up_extra()` in the source's test module. -/
def setUpExtra : ModuleExtra :=
  { ModuleExtra.new with
    comments := [⟨0, 10⟩, ⟨20, 30⟩, ⟨40, 50⟩, ⟨60, 70⟩, ⟨80, 90⟩, ⟨90, 100⟩] }

/-- C3: the six concrete `first_comment_between` scenarios on the test
comments list `[0,10],[20,30],[40,50],[60,70],[80,90],[90,100]`. -/
theorem first_comment_between_concrete_scenarios :
    setUpExtra.first_comment_between 15 85 = some ⟨20, 30⟩ ∧
    setUpExtra.first_comment_between 40 50 = some ⟨40, 50⟩ ∧
    setUpExtra.first_comment_between 45 80 = some ⟨40, 50⟩ ∧
    setUpExtra.first_comment_between 35 45 = some ⟨40, 50⟩ ∧
    setUpExtra.first_comment_between 55 60 = some ⟨60, 70⟩ ∧
    setUpExtra.first_comment_between 200 300 = none := by
  decide

/-- C4: `has_comment_between` is exactly `first_comment_between(..).is_some()`,
and both depend only on the `comments` sequence: two indexes with equal
`comments` (whatever their doc/module comments and position lists) agree on
both queries. -/
theorem has_comment_between_spec (e e' : ModuleExtra) (s en : Nat)
    (h : e.comments = e'.comments) :
    e.has_comment_between s en = (e.first_comment_between s en).isSome ∧
    e.first_comment_between s en = e'.first_comment_between s en ∧
    e.has_comment_between s en = e'.has_comment_between s en := by
  have hfirst : e.first_comment_between s en = e'.first_comment_between s en := by
    unfold ModuleExtra.first_comment_between
    rw [h]
  refine ⟨rfl, hfirst, ?_⟩
  unfold ModuleExtra.has_comment_between
  rw [hfirst]

/-- Witness for C4: two indexes sharing `comments` but differing everywhere
else. -/
theorem has_comment_between_spec_witness :
    (ModuleExtra.mk [⟨1, 2⟩] [] [⟨5, 6⟩] [] [] []).comments
      = (ModuleExtra.mk [] [⟨9, 9⟩] [⟨5, 6⟩] [3] [4] [5]).comments ∧
    (ModuleExtra.has_comment_between
        (ModuleExtra.mk [⟨1, 2⟩] [] [⟨5, 6⟩] [] [] []) 0 100
      = (ModuleExtra.first_comment_between
          (ModuleExtra.mk [⟨1, 2⟩] [] [⟨5, 6⟩] [] [] []) 0 100).isSome ∧
    ModuleExtra.first_comment_between
        (ModuleExtra.mk [⟨1, 2⟩] [] [⟨5, 6⟩] [] [] []) 0 100
      = ModuleExtra.first_comment_between
          (ModuleExtra.mk [] [⟨9, 9⟩] [⟨5, 6⟩] [3] [4] [5]) 0 100 ∧
    ModuleExtra.has_comment_between
        (ModuleExtra.mk [⟨1, 2⟩] [] [⟨5, 6⟩] [] [] []) 0 100
      = ModuleExtra.has_comment_between
          (ModuleExtra.mk [] [⟨9, 9⟩] [⟨5, 6⟩] [3] [4] [5]) 0 100) :=
  ⟨by decide,
    has_comment_between_spec (ModuleExtra.mk [⟨1, 2⟩] [] [⟨5, 6⟩] [] [] [])
      (ModuleExtra.mk [] [⟨9, 9⟩] [⟨5, 6⟩] [3] [4] [5]) 0 100 (by decide)⟩

/-- C6: with an empty `comments` sequence, `first_comment_between` returns
the explicit no-value result `none` for every query; the embedded function
is total, so absence is never an error. -/
theorem first_comment_between_empty (e : ModuleExtra) (h : e.comments = [])
    (s en : Nat) : e.first_comment_between s en = none := by
  unfold ModuleExtra.first_comment_between
  rw [h]
  rfl

/-- Witness for C6: empty comments but other sequences populated. -/
theorem first_comment_between_empty_witness :
    (ModuleExtra.mk [⟨1, 2⟩] [⟨4, 5⟩] [] [7] [8] [9]).comments = [] ∧
    ModuleExtra.first_comment_between
      (ModuleExtra.mk [⟨1, 2⟩] [⟨4, 5⟩] [] [7] [8] [9]) 3 7 = none :=
  ⟨by decide,
    first_comment_between_empty
      (ModuleExtra.mk [⟨1, 2⟩] [⟨4, 5⟩] [] [7] [8] [9]) (by decide) 3 7⟩

/-- C8: the three queries take the index by shared borrow; threading the
state through each call, a call leaves the index unchanged, and a repeated
call on the resulting state returns the identical result. -/
theorem queries_pure_and_deterministic (e : ModuleExtra) (o s en : Nat) :
    (e.is_within_comment_run o).2 = e ∧
    (e.has_comment_between_run s en).2 = e ∧
    (e.first_comment_between_run s en).2 = e ∧
    ((e.is_within_comment_run o).2.is_within_comment_run o).1
      = (e.is_within_comment_run o).1 ∧
    ((e.has_comment_between_run s en).2.has_comment_between_run s en).1
      = (e.has_comment_between_run s en).1 ∧
    ((e.first_comment_between_run s en).2.first_comment_between_run s en).1
      = (e.first_comment_between_run s en).1 :=
  ⟨rfl, rfl, rfl, rfl, rfl, rfl⟩

/-- C9: `ModuleExtra::new()` has all six sequences empty, so
`is_within_comment` is false at every offset and `first_comment_between`
finds nothing for every query. -/
theorem new_all_empty :
    ModuleExtra.new.module_comments = [] ∧
    ModuleExtra.new.doc_comments = [] ∧
    ModuleExtra.new.comments = [] ∧
    ModuleExtra.new.empty_lines = [] ∧
    ModuleExtra.new.new_lines = [] ∧
    ModuleExtra.new.trailing_commas = [] ∧
    (∀ o, ModuleExtra.new.is_within_comment o = false) ∧
    (∀ s en, ModuleExtra.new.first_comment_between s en = none) :=
  ⟨rfl, rfl, rfl, rfl, rfl, rfl, fun _ => rfl, fun _ _ => rfl⟩

/-- C5 counterexample: on the source's own test list (which satisfies the
sorted/non-overlapping invariant, adjacency permitted), the query range
`(90,100)` — exactly the bounds of the span `[90,100]` in the list — returns
the earlier adjacent overlapping span `[80,90]`, not `[90,100]`. -/
theorem first_comment_between_exact_bounds_counterexample :
    WellFormedComments setUpExtra.comments ∧
    (⟨90, 100⟩ : SrcSpan) ∈ setUpExtra.comments ∧
    setUpExtra.first_comment_between 90 100 = some ⟨80, 90⟩ ∧
    setUpExtra.first_comment_between 90 100 ≠ some ⟨90, 100⟩ := by
  decide

/-- C5 (amended): on a sorted, mutually non-overlapping `comments` sequence:
a degenerate query (`start = end = o`) returns a span containing `o`
whenever one exists; a query exactly equal to a span's bounds returns that
span provided no span earlier in the sequence also overlaps those bounds
(an earlier adjacent span may otherwise be returned instead); and a query
touching a span only at one boundary byte — its end equal to the span's
start, or its start equal to the span's end — still returns an overlapping
span. -/
theorem first_comment_between_boundary_amended (e : ModuleExtra)
    (hwf : WellFormedComments e.comments) :
    (∀ o s, s ∈ e.comments → s.start ≤ o → o ≤ s.«end» →
        ∃ r, e.first_comment_between o o = some r ∧
          r.start ≤ o ∧ o ≤ r.«end») ∧
    (∀ i, i < e.comments.length →
        (∀ j, j < i → ¬ (e.comments.getD j default).overlaps
            (e.comments.getD i default).start (e.comments.getD i default).«end») →
        e.first_comment_between (e.comments.getD i default).start
            (e.comments.getD i default).«end»
          = some (e.comments.getD i default)) ∧
    (∀ qs qe s, s ∈ e.comments → qs ≤ qe → (qe = s.start ∨ qs = s.«end») →
        ∃ r, e.first_comment_between qs qe = some r ∧ r.overlaps qs qe) := by
  refine ⟨?_, ?_, ?_⟩
  · intro o s hs h1 h2
    rcases first_comment_between_cases e o o hwf with
      ⟨i, hi, hsome, heq, _⟩ | ⟨_, hall⟩
    · have hov := (cmpBetween_eq_iff o o _).mp heq
      exact ⟨_, hsome, hov.2, hov.1⟩
    · exfalso
      obtain ⟨k, hk, hks⟩ := List.mem_iff_getElem.mp hs
      apply hall k hk
      rw [cmpBetween_eq_iff, getD_eq_getElem_of_lt _ _ hk, hks]
      exact ⟨h2, h1⟩
  · intro i hi hno
    have hwfi := wellFormed_start_le_end e.comments hwf i hi
    have hovi : (e.comments.getD i default).overlaps
        (e.comments.getD i default).start (e.comments.getD i default).«end» :=
      ⟨hwfi, hwfi⟩
    rcases first_comment_between_cases e (e.comments.getD i default).start
        (e.comments.getD i default).«end» hwf with
      ⟨j, hj, hsome, heqj, hminj⟩ | ⟨_, hall⟩
    · rcases lt_trichotomy j i with hji | hji | hji
      · exact absurd ((cmpBetween_eq_iff _ _ _).mp heqj) (hno j hji)
      · rw [hji] at hsome
        exact hsome
      · exact absurd ((cmpBetween_eq_iff _ _ _).mpr hovi) (hminj i hji)
    · exact absurd ((cmpBetween_eq_iff _ _ _).mpr hovi) (hall i hi)
  · intro qs qe s hs hle hqe
    have hwfs : s.start ≤ s.«end» := hwf.1 s hs
    have hov : s.overlaps qs qe := by
      rcases hqe with h | h
      · exact ⟨by omega, by omega⟩
      · exact ⟨by omega, by omega⟩
    rcases first_comment_between_cases e qs qe hwf with
      ⟨i, hi, hsome, heq, _⟩ | ⟨_, hall⟩
    · exact ⟨_, hsome, (cmpBetween_eq_iff qs qe _).mp heq⟩
    · exfalso
      obtain ⟨k, hk, hks⟩ := List.mem_iff_getElem.mp hs
      apply hall k hk
      rw [cmpBetween_eq_iff, getD_eq_getElem_of_lt _ _ hk, hks]
      exact hov

/-- Witness for the amended C5, covering both one-boundary-byte
orientations on the test list: the query `(55,60)` touches the span
`[60,70]` only at its start byte, and the query `(50,55)` touches the span
`[40,50]` only at its end byte. -/
theorem first_comment_between_boundary_amended_witness :
    WellFormedComments setUpExtra.comments ∧
    (∃ r, setUpExtra.first_comment_between 55 60 = some r ∧
      r.overlaps 55 60) ∧
    (∃ r, setUpExtra.first_comment_between 50 55 = some r ∧
      r.overlaps 50 55) :=
  ⟨by decide,
    (first_comment_between_boundary_amended setUpExtra (by decide)).2.2
      55 60 ⟨60, 70⟩ (by decide) (by decide) (Or.inl (by decide)),
    (first_comment_between_boundary_amended setUpExtra (by decide)).2.2
      50 55 ⟨40, 50⟩ (by decide) (by decide) (Or.inr (by decide))⟩

/-- An index past the end of the bytes is never a char boundary. -/
theorem is_char_boundary_gt_length (s : List Nat) (i : Nat)
    (h : s.length < i) : is_char_boundary s i = false := by
  unfold is_char_boundary
  rw [if_neg (by omega : ¬ i = 0), List.get?_eq_getElem?,
    List.getElem?_eq_none (by omega : s.length ≤ i)]
  simp
  omega

/-- A char boundary index is at most the byte length. -/
theorem is_char_boundary_le_length (s : List Nat) (i : Nat)
    (h : is_char_boundary s i = true) : i ≤ s.length := by
  by_contra hc
  rw [is_char_boundary_gt_length s i (by omega)] at h
  cases h

/-- `str_get` fails exactly when the range is reversed or an endpoint is
not a char boundary. -/
theorem str_get_none_iff (s : List Nat) (a b : Nat) :
    str_get s a b = none ↔
      ¬ (a ≤ b ∧ is_char_boundary s a = true ∧ is_char_boundary s b = true) := by
  unfold str_get
  split_ifs with hcond
  · simp only [Bool.and_eq_true, decide_eq_true_eq] at hcond
    constructor
    · intro hn
      cases hn
    · intro hn
      exact absurd ⟨hcond.1.1, hcond.1.2, hcond.2⟩ hn
  · have hcond' : ¬ (a ≤ b ∧ is_char_boundary s a = true ∧
        is_char_boundary s b = true) := by
      intro hc
      exact hcond (by simp [hc.1, hc.2.1, hc.2.2])
    exact ⟨fun _ => hcond', fun _ => rfl⟩

/-- A successful `str_get` means a well-oriented, in-bounds range, and the
result is the half-open byte slice `[a, b)`. -/
theorem str_get_some (s : List Nat) (a b : Nat) (r : List Nat)
    (h : str_get s a b = some r) :
    a ≤ b ∧ b ≤ s.length ∧ r = (s.drop a).take (b - a) := by
  unfold str_get at h
  split_ifs at h with hcond
  · simp only [Bool.and_eq_true, decide_eq_true_eq] at hcond
    exact ⟨hcond.1.1, is_char_boundary_le_length s b hcond.2,
      (Option.some.inj h).symm⟩

/-- C7: for a well-oriented span (`start ≤ end`, the `SourceSpan`
invariant), building a `Comment` from a span and a backing text fails (the
reference panics, modelled as `none`) iff the span's bounds fall outside the
text's length or hit a non-boundary (mid-character) byte index; otherwise it
yields the comment's text content, the slice of the backing bytes. -/
theorem fromSpan_failure_iff (span : SrcSpan) (text : List Nat)
    (h : span.start ≤ span.«end») :
    (Comment.fromSpan span text = none ↔
      text.length < span.«end» ∨
        is_char_boundary text span.start = false ∨
        is_char_boundary text span.«end» = false) ∧
    ∀ c, Comment.fromSpan span text = some c →
      c.start = span.start ∧
      c.content = (text.drop span.start).take (span.«end» - span.start) := by
  constructor
  · unfold Comment.fromSpan
    rw [Option.map_eq_none', str_get_none_iff]
    constructor
    · intro hn
      rcases hbs : is_char_boundary text span.start with _ | _
      · exact Or.inr (Or.inl rfl)
      · rcases hbe : is_char_boundary text span.«end» with _ | _
        · exact Or.inr (Or.inr rfl)
        · exact absurd ⟨h, hbs, hbe⟩ hn
    · intro hd hc
      obtain ⟨_, hbs, hbe⟩ := hc
      rcases hd with hd | hd | hd
      · rw [is_char_boundary_gt_length text _ hd] at hbe
        cases hbe
      · rw [hd] at hbs
        cases hbs
      · rw [hd] at hbe
        cases hbe
  · intro c hc
    unfold Comment.fromSpan at hc
    rcases ho : str_get text span.start span.«end» with _ | r
    · rw [ho] at hc
      cases hc
    · rw [ho, Option.map_some'] at hc
      have hcr := Option.some.inj hc
      have hr := (str_get_some text span.start span.«end» r ho).2.2
      rw [← hcr]
      exact ⟨rfl, hr⟩

/-- Witness for C7: the span `[1,3]` over the two-character text `"aé"`
(bytes `[97, 195, 169]`), whose extraction succeeds. -/
theorem fromSpan_failure_iff_witness :
    (1 : Nat) ≤ 3 ∧
    (Comment.fromSpan ⟨1, 3⟩ [97, 195, 169] = none ↔
      List.length [97, 195, 169] < 3 ∨
        is_char_boundary [97, 195, 169] 1 = false ∨
        is_char_boundary [97, 195, 169] 3 = false) :=
  ⟨by decide, (fromSpan_failure_iff ⟨1, 3⟩ [97, 195, 169] (by decide)).1⟩

/-- C10: the slicing convention is half-open: a successfully built `Comment`
starts at `span.start` and its content is the byte range
`[span.start, span.end)` of the text — length `span.end - span.start`, so a
degenerate span yields empty content. -/
theorem fromSpan_half_open (span : SrcSpan) (text : List Nat) (c : Comment)
    (h : Comment.fromSpan span text = some c) :
    c.start = span.start ∧
    c.content = (text.drop span.start).take (span.«end» - span.start) ∧
    c.content.length = span.«end» - span.start ∧
    (span.start = span.«end» → c.content = []) := by
  unfold Comment.fromSpan at h
  rcases ho : str_get text span.start span.«end» with _ | r
  · rw [ho] at h
    cases h
  · rw [ho, Option.map_some'] at h
    have hcr := Option.some.inj h
    obtain ⟨hab, hbl, hr⟩ := str_get_some text span.start span.«end» r ho
    subst hr
    rw [← hcr]
    refine ⟨rfl, rfl, ?_, ?_⟩
    · simp [List.length_take, List.length_drop]
      omega
    · intro hse
      rw [show span.«end» - span.start = 0 from by omega]
      simp

/-- Witness for C10 at the concrete span `[1,3]` over `"aé"`. -/
theorem fromSpan_half_open_witness :
    Comment.fromSpan ⟨1, 3⟩ [97, 195, 169] = some ⟨1, [195, 169]⟩ ∧
    (Comment.mk 1 [195, 169]).start = 1 ∧
    (Comment.mk 1 [195, 169]).content = (List.drop 1 [97, 195, 169]).take (3 - 1) ∧
    (Comment.mk 1 [195, 169]).content.length = 3 - 1 :=
  ⟨by decide,
    (fromSpan_half_open ⟨1, 3⟩ [97, 195, 169] ⟨1, [195, 169]⟩ (by decide)).1,
    (fromSpan_half_open ⟨1, 3⟩ [97, 195, 169] ⟨1, [195, 169]⟩ (by decide)).2.1,
    (fromSpan_half_open ⟨1, 3⟩ [97, 195, 169] ⟨1, [195, 169]⟩ (by decide)).2.2.1⟩
